import Mathlib

/-!
Verification of the Blender draw-pass command-recording layer
(`source/blender/draw/intern/draw_pass.hh`) and the BMesh identifier map
(`source/blender/bmesh/intern/bmesh_idmap.h`), as a shallow embedding in Lean.

Modelling conventions:
* C++ pointers to external GPU objects (shaders, batches, buffers, textures)
  are modelled as abstract `Nat` handles; they are only stored and compared,
  never dereferenced by this layer.
* `float` payloads are only stored and replayed by the code under study, never
  computed with; they are modelled by the opaque value type `FVal := Int`.
* Reading an array out of bounds is undefined behaviour in C++; such reads are
  modelled as `Option.none` results of an explicit memory-read function, while
  a defined read of a nullable pointer cell yields `some v`.
* Debug-only assertions (`BLI_assert`) compile to no-ops in release builds and
  are modelled as no-ops.
-/

/-! ## BMesh identifier map (`bmesh_idmap.h`) -/

/-- A BMesh element as seen by the id map: an abstract storage address plus the
id stored in the element's custom-data layer (`BM_ELEM_CD_GET_INT`). -/
structure BMElemM where
  addr : Nat
  id : Int
deriving DecidableEq, Repr

/-- The identifier map.  Only the fields read by the inlined functions under
study are modelled: `map` is the dense id → element-pointer array (a cell is
`Option.none` when the stored pointer is null), and `map_size` is `map.length`.
The free-list bookkeeping fields are not touched by `BM_idmap_lookup` or
`BM_idmap_on_elem_moved`. -/
structure BMIdMapM where
  map : List (Option BMElemM)
deriving DecidableEq, Repr

/-- Raw array read `map->map[i]`: defined only for `0 ≤ i < map_size`; an
out-of-range access is undefined behaviour, modelled as `Option.none`. -/
def idmapRead (m : List (Option BMElemM)) (i : Int) : Option (Option BMElemM) :=
  if h : 0 ≤ i ∧ i.toNat < m.length then some (m.get ⟨i.toNat, h.2⟩) else Option.none

/-- `BM_idmap_lookup(map, elem)`: `return elem >= 0 ? map->map[elem] : NULL;`.
The outer `Option` is definedness of the call (none = out-of-bounds read), the
inner `Option` is the returned nullable pointer. -/
def BM_idmap_lookup (m : BMIdMapM) (elem : Int) : Option (Option BMElemM) :=
  if 0 ≤ elem then idmapRead m.map elem else some Option.none

/-- `BM_idmap_on_elem_moved(map, old_elem, new_elem)`: reads the id stored in
`new_elem`, and when it is inside `[0, map_size)` repoints `map[id]` to
`new_elem`.  The corruption check in the source short-circuits before any
out-of-range read and its body (a `printf`) is commented out, so it has no
effect on the state. -/
def BM_idmap_on_elem_moved (m : BMIdMapM) (old_elem new_elem : BMElemM) : BMIdMapM :=
  let i := new_elem.id
  if 0 ≤ i ∧ i < (m.map.length : Int) then
    { m with map := m.map.set i.toNat (some new_elem) }
  else
    m

/-- C3 counterexample input: a map of size 1. -/
def idmapSize1 : BMIdMapM := ⟨[Option.none]⟩

/-- C3 claims that looking up any id `≥ map_size` returns null.  On a map of
size 1, looking up id 1 performs the unchecked read `map->map[1]`, which is out
of bounds (undefined behaviour), not a null return. -/
theorem idmap_lookup_oob_not_null :
    ¬ (BM_idmap_lookup idmapSize1 1 = some Option.none) := by
  decide

/-- C3 (amended): `BM_idmap_lookup` returns null for every negative id, and for
every id inside `[0, map_size)` it returns the stored map cell; ids `≥
map_size` are read without a bounds check (no null guarantee). -/
theorem idmap_lookup_amended (m : BMIdMapM) (e : Int) :
    (e < 0 → BM_idmap_lookup m e = some Option.none) ∧
    (∀ (h0 : 0 ≤ e) (h1 : e.toNat < m.map.length),
      BM_idmap_lookup m e = some (m.map.get ⟨e.toNat, h1⟩)) := by
  constructor
  · intro hneg
    unfold BM_idmap_lookup
    rw [if_neg (by omega)]
  · intro h0 h1
    unfold BM_idmap_lookup idmapRead
    rw [if_pos h0, dif_pos ⟨h0, h1⟩]

/-- Witness for `idmap_lookup_amended` at a concrete map and ids. -/
theorem idmap_lookup_amended_witness :
    BM_idmap_lookup ⟨[some ⟨7, 0⟩]⟩ (-2) = some Option.none ∧
    BM_idmap_lookup ⟨[some ⟨7, 0⟩]⟩ 0 = some (some ⟨7, 0⟩) :=
  ⟨(idmap_lookup_amended ⟨[some ⟨7, 0⟩]⟩ (-2)).1 (by decide),
   (idmap_lookup_amended ⟨[some ⟨7, 0⟩]⟩ 0).2 (by decide) (by decide)⟩

/-- C7: relocating an element whose stored id lies in `[0, map_size)` makes
lookup of that id return the new reference, and leaves every other map cell
unchanged. -/
theorem idmap_on_elem_moved_repoints (m : BMIdMapM) (old_elem new_elem : BMElemM)
    (h0 : 0 ≤ new_elem.id) (h1 : new_elem.id < (m.map.length : Int)) :
    BM_idmap_lookup (BM_idmap_on_elem_moved m old_elem new_elem) new_elem.id
      = some (some new_elem) ∧
    (∀ j : Nat, j ≠ new_elem.id.toNat →
      (BM_idmap_on_elem_moved m old_elem new_elem).map[j]? = m.map[j]?) := by
  have hset : (BM_idmap_on_elem_moved m old_elem new_elem).map
      = m.map.set new_elem.id.toNat (some new_elem) := by
    unfold BM_idmap_on_elem_moved
    rw [if_pos ⟨h0, h1⟩]
  have hnat : new_elem.id.toNat < m.map.length := by omega
  constructor
  · unfold BM_idmap_lookup idmapRead
    rw [if_pos h0]
    have hlen : (m.map.set new_elem.id.toNat (some new_elem)).length = m.map.length := by
      simp
    rw [dif_pos (by rw [hset, hlen]; exact ⟨h0, hnat⟩)]
    congr 1
    rw [List.get_eq_getElem]
    simp only [hset]
    rw [List.getElem_set_self]
  · intro j hj
    rw [hset, List.getElem?_set]
    simp [Ne.symm hj]

/-- Witness for `idmap_on_elem_moved_repoints`: relocate the element with id 1
in a two-cell map. -/
theorem idmap_on_elem_moved_repoints_witness :
    BM_idmap_lookup
        (BM_idmap_on_elem_moved ⟨[Option.none, some ⟨5, 1⟩]⟩ ⟨5, 1⟩ ⟨9, 1⟩) 1
      = some (some ⟨9, 1⟩) ∧
    (BM_idmap_on_elem_moved ⟨[Option.none, some ⟨5, 1⟩]⟩ ⟨5, 1⟩ ⟨9, 1⟩).map[0]?
      = (⟨[Option.none, some ⟨5, 1⟩]⟩ : BMIdMapM).map[0]? := by
  have h := idmap_on_elem_moved_repoints ⟨[Option.none, some ⟨5, 1⟩]⟩ ⟨5, 1⟩ ⟨9, 1⟩
    (by decide) (by decide)
  exact ⟨h.1, h.2 0 (by decide)⟩


/-! ## SubPassVector (`draw_pass.hh`, `detail::SubPassVector`)

A container of blocks of at most `block_size` elements; a full (or absent)
last block triggers allocation of a fresh block, so that already-stored
elements are never moved.  The abstract content is the concatenation of the
blocks; stability is expressed as: indexing is unchanged by later appends. -/

structure SubPassVec (α : Type) where
  blocks : List (List α)
deriving DecidableEq, Repr

/-- `SubPassVector::append_and_get_index`: if there is no block yet
(`blocks_.is_empty()`) or the last block is full, start a new block; append to
the then-last block and return the global index
`(index in last block) + (number of blocks - 1) * block_size`. -/
def SPappend {α : Type} (b : Nat) (v : SubPassVec α) (x : α) : SubPassVec α × Nat :=
  match v.blocks.getLast? with
  | Option.none => (⟨[[x]]⟩, 0)
  | some lastB =>
    if lastB.length = b then
      let blocks := v.blocks ++ [[x]]
      (⟨blocks⟩, (blocks.length - 1) * b)
    else
      let blocks := v.blocks.dropLast ++ [lastB ++ [x]]
      (⟨blocks⟩, lastB.length + (blocks.length - 1) * b)

/-- `SubPassVector::operator[]`: `(*blocks_[index / block_size])[index % block_size]`.
An out-of-range access is undefined behaviour, modelled as `Option.none`. -/
def SPget {α : Type} (b : Nat) (v : SubPassVec α) (i : Nat) : Option α :=
  (v.blocks[i / b]?).bind fun blk => blk[i % b]?

/-- The container obtained by appending the elements of `xs` in order into an
initially empty `SubPassVector` with block size `b`. -/
def buildSPV {α : Type} (b : Nat) (xs : List α) : SubPassVec α :=
  xs.foldl (fun v x => (SPappend b v x).1) ⟨[]⟩

/-- Structural invariant of `SubPassVector`: every block but the last holds
exactly `b` elements, and the last block is non-empty and holds at most `b`. -/
def SPWF {α : Type} (b : Nat) (v : SubPassVec α) : Prop :=
  (∀ blk ∈ v.blocks.dropLast, blk.length = b) ∧
  (∀ blk ∈ v.blocks.getLast?, 0 < blk.length ∧ blk.length ≤ b)

lemma flatten_len_const {α : Type} {b : Nat} :
    ∀ {l : List (List α)}, (∀ blk ∈ l, blk.length = b) → l.flatten.length = l.length * b := by
  intro l
  induction l with
  | nil => intro _; simp
  | cons blk rest ih =>
    intro h
    have hb : blk.length = b := h blk (by simp)
    have hr := ih (fun c hc => h c (by simp [hc]))
    simp [hb, hr, Nat.succ_mul, Nat.add_comm]

lemma spappend_spec {α : Type} {b : Nat} (hb : 0 < b) (v : SubPassVec α) (x : α)
    (hwf : SPWF b v) :
    (SPappend b v x).1.blocks.flatten = v.blocks.flatten ++ [x] ∧
    SPWF b (SPappend b v x).1 ∧
    (SPappend b v x).2 = v.blocks.flatten.length := by
  rcases hwf with ⟨hdrop, hlast⟩
  cases hL : v.blocks.getLast? with
  | none =>
    have hnil : v.blocks = [] := List.getLast?_eq_none_iff.mp hL
    refine ⟨by simp [SPappend, hL, hnil], ⟨?_, ?_⟩, by simp [SPappend, hL, hnil]⟩
    · intro blk hblk
      simp [SPappend, hL] at hblk
    · intro blk hblk
      simp [SPappend, hL] at hblk
      subst hblk
      exact ⟨by simp, hb⟩
  | some lastB =>
    have hne : v.blocks ≠ [] := by
      intro hnil
      rw [hnil] at hL
      simp at hL
    have hLast : v.blocks.getLast hne = lastB := by
      have := List.getLast?_eq_getLast v.blocks hne
      rw [hL] at this
      exact (Option.some_injective _ this.symm)
    have hsplit : v.blocks.dropLast ++ [lastB] = v.blocks := by
      rw [← hLast]
      exact List.dropLast_append_getLast hne
    have hflat : v.blocks.flatten = v.blocks.dropLast.flatten ++ lastB := by
      conv_lhs => rw [← hsplit]
      simp
    have hdl := flatten_len_const (b := b) hdrop
    have hlenB : 0 < lastB.length ∧ lastB.length ≤ b := hlast lastB (by rw [hL]; rfl)
    by_cases hfull : lastB.length = b
    · have hallL : ∀ blk ∈ v.blocks, blk.length = b := by
        intro blk hblk
        rw [← hsplit] at hblk
        rcases List.mem_append.mp hblk with hd | hg
        · exact hdrop blk hd
        · simp at hg
          subst hg
          exact hfull
      refine ⟨?_, ⟨?_, ?_⟩, ?_⟩
      · simp [SPappend, hL, hfull]
      · intro blk hblk
        simp only [SPappend, hL, if_pos hfull] at hblk
        rw [List.dropLast_concat] at hblk
        exact hallL blk hblk
      · intro blk hblk
        simp only [SPappend, hL, if_pos hfull] at hblk
        rw [List.getLast?_concat] at hblk
        simp at hblk
        subst hblk
        exact ⟨by simp, hb⟩
      · have hflatLen := flatten_len_const (b := b) hallL
        simp [SPappend, hL, hfull, hflatLen]
    · refine ⟨?_, ⟨?_, ?_⟩, ?_⟩
      · simp only [SPappend, hL, if_neg hfull]
        rw [hflat]
        simp
      · intro blk hblk
        simp only [SPappend, hL, if_neg hfull] at hblk
        rw [List.dropLast_concat] at hblk
        exact hdrop blk hblk
      · intro blk hblk
        simp only [SPappend, hL, if_neg hfull] at hblk
        rw [List.getLast?_concat] at hblk
        simp at hblk
        subst hblk
        refine ⟨by simp, ?_⟩
        simp
        omega
      · simp only [SPappend, hL, if_neg hfull]
        rw [hflat]
        simp [hdl]
        have hlen : v.blocks.dropLast.length + 1 = v.blocks.length := by
          conv_rhs => rw [← hsplit]
          simp
        simp [List.length_append] at hlen ⊢
        omega

lemma buildSPV_from {α : Type} {b : Nat} (hb : 0 < b) :
    ∀ (xs : List α) (v : SubPassVec α), SPWF b v →
      (xs.foldl (fun v x => (SPappend b v x).1) v).blocks.flatten
          = v.blocks.flatten ++ xs ∧
      SPWF b (xs.foldl (fun v x => (SPappend b v x).1) v) := by
  intro xs
  induction xs with
  | nil => intro v hv; exact ⟨by simp, hv⟩
  | cons x rest ih =>
    intro v hv
    have h1 := spappend_spec hb v x hv
    have h2 := ih (SPappend b v x).1 h1.2.1
    simp only [List.foldl_cons]
    refine ⟨?_, h2.2⟩
    rw [h2.1, h1.1]
    simp

lemma spwf_empty {α : Type} (b : Nat) : SPWF b (⟨[]⟩ : SubPassVec α) := by
  constructor
  · intro blk hblk; simp at hblk
  · intro blk hblk; simp at hblk

lemma buildSPV_flatten {α : Type} {b : Nat} (hb : 0 < b) (xs : List α) :
    (buildSPV b xs).blocks.flatten = xs ∧ SPWF b (buildSPV b xs) := by
  have h := buildSPV_from hb xs ⟨[]⟩ (spwf_empty b)
  simpa [buildSPV] using h

lemma spget_flatten {α : Type} {b : Nat} (hb : 0 < b) :
    ∀ (blocks : List (List α)),
      (∀ blk ∈ blocks.dropLast, blk.length = b) →
      (∀ blk ∈ blocks.getLast?, blk.length ≤ b) →
      ∀ i, i < blocks.flatten.length →
        SPget b ⟨blocks⟩ i = blocks.flatten[i]? := by
  intro blocks
  induction blocks with
  | nil => intro _ _ i hi; simp at hi
  | cons blk rest ih =>
    intro hdrop hlast i hi
    cases rest with
    | nil =>
      have hble : blk.length ≤ b := hlast blk (by simp)
      have hi' : i < blk.length := by simpa using hi
      have hib : i < b := Nat.lt_of_lt_of_le hi' hble
      unfold SPget
      simp [Nat.div_eq_of_lt hib, Nat.mod_eq_of_lt hib]
    | cons r rs =>
      have hblk : blk.length = b := by
        apply hdrop
        rw [List.dropLast_cons₂]
        simp
      have hdrop' : ∀ c ∈ (r :: rs).dropLast, c.length = b := by
        intro c hc
        apply hdrop
        rw [List.dropLast_cons₂]
        simp [hc]
      have hlast' : ∀ c ∈ (r :: rs).getLast?, c.length ≤ b := by
        intro c hc
        apply hlast
        rw [List.getLast?_cons_cons]
        exact hc
      have hflat2 : (blk :: r :: rs).flatten = blk ++ (r :: rs).flatten := by simp
      by_cases hib : i < b
      · have hilt : i < blk.length := by omega
        unfold SPget
        simp only [Nat.div_eq_of_lt hib, Nat.mod_eq_of_lt hib]
        rw [hflat2, List.getElem?_append_left hilt]
        simp
      · have hble : b ≤ i := Nat.le_of_not_lt hib
        have hdiv : i / b = (i - b) / b + 1 := Nat.div_eq_sub_div hb hble
        have hmod : i % b = (i - b) % b := Nat.mod_eq_sub_mod hble
        have hlen2 : (blk :: r :: rs).flatten.length
            = blk.length + (r :: rs).flatten.length := by
          rw [hflat2, List.length_append]
        have hi' : i - b < (r :: rs).flatten.length := by omega
        have hih := ih hdrop' hlast' (i - b) hi'
        unfold SPget at hih ⊢
        rw [hdiv, hmod]
        rw [show ((blk :: r :: rs)[(i - b) / b + 1]? = (r :: rs)[(i - b) / b]?) from
          List.getElem?_cons_succ]
        rw [hih, hflat2, List.getElem?_append_right (by omega)]
        congr 1
        omega

/-- C9: building a `SubPassVector` (block size `b ≥ 1`) by successive
`append_and_get_index` calls, the append after `n` prior appends returns index
`n`, and every previously returned index stays valid and keeps referring to the
same element after any number of further appends. -/
theorem subpassvec_append_index_stable {α : Type} (b : Nat) (xs ys : List α) (x : α)
    (i : Nat) (hb : 0 < b) (hi : i < xs.length) :
    (SPappend b (buildSPV b xs) x).2 = xs.length ∧
    SPget b (buildSPV b (xs ++ ys)) i = some (xs.get ⟨i, hi⟩) := by
  have hxs := buildSPV_flatten hb xs
  have hxys := buildSPV_flatten hb (xs ++ ys)
  constructor
  · have h := spappend_spec hb (buildSPV b xs) x hxs.2
    rw [h.2.2, hxs.1]
  · have hwf := hxys.2
    have hget := spget_flatten hb (buildSPV b (xs ++ ys)).blocks hwf.1
      (fun blk hblk => (hwf.2 blk hblk).2) i
      (by rw [hxys.1]; simp; omega)
    have hv : (⟨(buildSPV b (xs ++ ys)).blocks⟩ : SubPassVec α) = buildSPV b (xs ++ ys) := rfl
    rw [hv] at hget
    rw [hget, hxys.1, List.getElem?_append_left hi]
    simp

/-- Witness for `subpassvec_append_index_stable` at block size 2 with three
prior appends and two later ones. -/
theorem subpassvec_append_index_stable_witness :
    (SPappend 2 (buildSPV 2 [10, 20, 30]) 60).2 = 3 ∧
    SPget 2 (buildSPV 2 ([10, 20, 30] ++ [40, 50])) 2 = some 30 :=
  subpassvec_append_index_stable 2 [10, 20, 30] [40, 50] 60 2 (by decide) (by decide)

/-! ## Pass recording layer (`draw_pass.hh`, `detail::PassBase`)

A pass records a header sequence (`headers_`), a command storage sequence
(`commands_`), and the currently bound shader (`shader_`).  The sub-pass
container (`sub_passes_`) is shared with the root pass; sub-pass headers store
indices into it.  The whole recording state is therefore a root pass record
plus the shared pool of sub-pass records.  (`SubPassVector` is verified above
to behave as its flattened element list, so the pool is modelled as that list.)
-/

/-- Opaque stand-in for a `float` payload: stored and replayed, never computed
with by this layer. -/
abbrev FVal := Int

/-- `command::Type`: the command tags dispatched by `PassBase::submit` and
`PassBase::serialize`. -/
inductive CmdType
| none
| subPass
| shaderBind
| resourceBind
| pushConstant
| draw
| drawMulti
| drawIndirect
| dispatch
| dispatchIndirect
| barrier
| clear
| stateSet
| stencilSet
deriving DecidableEq, Repr

/-- `command::Header`: {command type tag, index into the type-specific storage
or the sub-pass pool}. -/
structure Header where
  type : CmdType
  index : Nat
deriving DecidableEq, Repr

/-- `command::Undetermined` (the per-command payloads live in
`draw_command.hh`, which is not part of this snapshot; the payload fields are
modelled from the spec: each variant carries only handles/slots/values).
`undet` is a default-initialized slot whose content is never interpreted (the
two overflow slots of a 4x4-matrix push constant). -/
inductive Cmd
| undet
| shaderBind (shader : Nat)
| resourceBind (slot : Int) (res : Nat)
| pushConst (location : Int) (arrayLen compLen : Nat) (value : List FVal)
| pushConstRef (location : Int) (ptr : Nat)
| drawCmd (batch : Nat) (instLen vertLen vertFirst : Nat) (handle : Nat)
| drawIndirectCmd (batch : Nat) (buf : Nat) (handle : Nat)
| dispatchCmd (groupLen : Int × Int × Int)
| dispatchRefCmd (groupRef : Nat)
| dispatchIndirectCmd (buf : Nat)
| barrierCmd (ty : Nat)
| clearCmd (bits : Nat) (stencil : Nat) (depth : FVal) (color : List FVal)
| stateSetCmd (st : Nat)
| stencilSetCmd (writeMask ref compMask : Nat)
deriving DecidableEq, Repr

/-- The recorded data of one `PassBase`: `debug_name`, `headers_`, `commands_`
and `shader_` (an abstract shader handle, `Option.none` = `nullptr`). -/
structure PassRec where
  name : String
  headers : List Header
  commands : List Cmd
  shader : Option Nat
deriving DecidableEq, Repr

/-- A root pass together with the shared sub-pass pool (`sub_passes_`). -/
structure TreeState where
  root : PassRec
  pool : List PassRec
deriving DecidableEq, Repr

/-- Which pass of a tree an operation targets: `Option.none` is the root pass,
`some i` is the sub-pass at pool index `i`. -/
abbrev PassRef := Option Nat

/-- Modelled from the spec: the external collaborators used at record time.
`resolveUniform` is the shader-reflection service behind
`GPU_shader_get_uniform` (used by `push_constant_offset`), `resolveBinding`
stands for the `GPU_shader_get_*_binding` lookups used by name-based binds,
and `serializeCmd`/`serializeMulti` are the per-command debug serializers of
`draw_command.hh` (`serializeMulti` is the multi-line `DrawMulti` variant,
which receives the line prefix).  All theorems hold for every choice of these
services. -/
structure Services where
  resolveUniform : Option Nat → String → Int
  resolveBinding : Option Nat → String → Int
  serializeCmd : Cmd → String
  serializeMulti : Cmd → String → List String

def getPass (s : TreeState) (r : PassRef) : Option PassRec :=
  match r with
  | Option.none => some s.root
  | some i => s.pool[i]?

def setPass (s : TreeState) (r : PassRef) (f : PassRec → PassRec) : TreeState :=
  match r with
  | Option.none => { s with root := f s.root }
  | some i =>
    match s.pool[i]? with
    | some p => { s with pool := s.pool.set i (f p) }
    | Option.none => s

/-- `PassBase::create_command`: append a command slot, then append a header
whose index is the slot's position (`commands_.append_and_get_index`).  The
payload is assigned through the returned reference; the model appends the
final payload directly. -/
def createCommand (s : TreeState) (r : PassRef) (ty : CmdType) (c : Cmd) : TreeState :=
  setPass s r fun p =>
    { p with
      commands := p.commands ++ [c],
      headers := p.headers ++ [⟨ty, p.commands.length⟩] }

/-- `PassBase::sub`: append a fresh pass (inheriting the parent's bound
shader) to the shared pool, and append a `SubPass` header pointing at it. -/
def addSub (s : TreeState) (r : PassRef) (nm : String) : TreeState :=
  match getPass s r with
  | Option.none => s
  | some parent =>
    let idx := s.pool.length
    let s1 : TreeState := { s with pool := s.pool ++ [⟨nm, [], [], parent.shader⟩] }
    setPass s1 r fun p => { p with headers := p.headers ++ [⟨CmdType.subPass, idx⟩] }

/-- One recording operation, addressed at a pass of the tree.  This is the
recording API of `PassBase` (name-based bind variants resolve a slot through
the reflection service and then behave like the slot variants, exactly as in
the source; `clear_color` etc. all funnel into `clear`). -/
inductive Op
| state_set (r : PassRef) (st : Nat)
| state_stencil (r : PassRef) (writeMask ref compMask : Nat)
| shader_set (r : PassRef) (sh : Nat)
| clear (r : PassRef) (bits : Nat) (color : List FVal) (depth : FVal) (stencil : Nat)
| barrier (r : PassRef) (ty : Nat)
| bind_slot (r : PassRef) (slot : Int) (res : Nat)
| bind_name (r : PassRef) (nm : String) (res : Nat)
| push_constant (r : PassRef) (nm : String) (compLen : Nat) (value : List FVal)
| push_constant_mat4_ref (r : PassRef) (nm : String) (ptr : Nat)
| push_constant_mat4 (r : PassRef) (nm : String) (m : List FVal)
| draw (r : PassRef) (batch instLen vertLen vertFirst handle : Nat)
| draw_indirect (r : PassRef) (batch buf handle : Nat)
| dispatch (r : PassRef) (g : Int × Int × Int)
| dispatch_ref (r : PassRef) (gref : Nat)
| dispatch_indirect (r : PassRef) (buf : Nat)
| sub (r : PassRef) (nm : String)

/-- The state transformer of one recording operation, following the source:
* `draw` drops the call before recording anything when the instance or vertex
  count is zero (`if (instance_len == 0 || vertex_len == 0) return;`); a
  non-zero draw appends one Draw command (the `DrawCommandBuf::append_draw`
  body lives outside this snapshot and is modelled from the spec:
  "Draw/dispatch/bind/push-constant operations append corresponding commands").
* the three `dispatch` overloads record unconditionally;
* `shader_set` updates `shader_` and records a ShaderBind command;
* `push_constant` with a 4x4 matrix value records one PushConstant command
  followed by two `Type::None` placeholder slots (the 64-byte workaround);
* `sub` appends to the shared pool. -/
def step (sv : Services) (s : TreeState) : Op → TreeState
| Op.state_set r st => createCommand s r CmdType.stateSet (Cmd.stateSetCmd st)
| Op.state_stencil r w rf c =>
    createCommand s r CmdType.stencilSet (Cmd.stencilSetCmd w rf c)
| Op.shader_set r sh =>
    createCommand (setPass s r fun p => { p with shader := some sh }) r
      CmdType.shaderBind (Cmd.shaderBind sh)
| Op.clear r bits color depth stencil =>
    createCommand s r CmdType.clear (Cmd.clearCmd bits stencil depth color)
| Op.barrier r ty => createCommand s r CmdType.barrier (Cmd.barrierCmd ty)
| Op.bind_slot r slot res =>
    createCommand s r CmdType.resourceBind (Cmd.resourceBind slot res)
| Op.bind_name r nm res =>
    match getPass s r with
    | Option.none => s
    | some p =>
      createCommand s r CmdType.resourceBind
        (Cmd.resourceBind (sv.resolveBinding p.shader nm) res)
| Op.push_constant r nm compLen value =>
    match getPass s r with
    | Option.none => s
    | some p =>
      createCommand s r CmdType.pushConstant
        (Cmd.pushConst (sv.resolveUniform p.shader nm) 1 compLen value)
| Op.push_constant_mat4_ref r nm ptr =>
    match getPass s r with
    | Option.none => s
    | some p =>
      createCommand s r CmdType.pushConstant
        (Cmd.pushConstRef (sv.resolveUniform p.shader nm) ptr)
| Op.push_constant_mat4 r nm m =>
    match getPass s r with
    | Option.none => s
    | some p =>
      let s1 := createCommand s r CmdType.pushConstant
        (Cmd.pushConst (sv.resolveUniform p.shader nm) 1 16 m)
      let s2 := createCommand s1 r CmdType.none Cmd.undet
      createCommand s2 r CmdType.none Cmd.undet
| Op.draw r batch il vl vf hd =>
    if il = 0 ∨ vl = 0 then s
    else createCommand s r CmdType.draw (Cmd.drawCmd batch il vl vf hd)
| Op.draw_indirect r batch buf hd =>
    createCommand s r CmdType.drawIndirect (Cmd.drawIndirectCmd batch buf hd)
| Op.dispatch r g => createCommand s r CmdType.dispatch (Cmd.dispatchCmd g)
| Op.dispatch_ref r gref =>
    createCommand s r CmdType.dispatch (Cmd.dispatchRefCmd gref)
| Op.dispatch_indirect r buf =>
    createCommand s r CmdType.dispatchIndirect (Cmd.dispatchIndirectCmd buf)
| Op.sub r nm => addSub s r nm

/-- A freshly `init()`-ed pass: empty headers, commands and pool, no shader. -/
def initState (nm : String) : TreeState := ⟨⟨nm, [], [], Option.none⟩, []⟩

/-- The recording state reached from `init()` by a sequence of recording
operations. -/
def build (sv : Services) (nm : String) (ops : List Op) : TreeState :=
  ops.foldl (step sv) (initState nm)

/-! ### Header/storage invariant

Each recorded header indexes valid storage; a `SubPass` header recorded in the
pool element at index `i` moreover points strictly past `i` (sub-passes are
always appended after their parent), which bounds the recursion depth of
`submit`. -/

/-- Lower bound on sub-pass indices reachable from a pass: the root may point
anywhere into the pool; pool element `i` only points past `i`. -/
def loOf : PassRef → Nat
  | Option.none => 0
  | some i => i + 1

/-- A single header indexes valid storage: a `SubPass` header points into the
pool (past the lower bound `lo`), every other header points into the command
storage of its pass. -/
def HdrOK (poolLen cmdsLen lo : Nat) (h : Header) : Prop :=
  match h.type with
  | CmdType.subPass => lo ≤ h.index ∧ h.index < poolLen
  | _ => h.index < cmdsLen

def PassOK (poolLen lo : Nat) (p : PassRec) : Prop :=
  ∀ h ∈ p.headers, HdrOK poolLen p.commands.length lo h

def TreeInv (s : TreeState) : Prop :=
  ∀ r p, getPass s r = some p → PassOK s.pool.length (loOf r) p

lemma setPass_poolLen (s : TreeState) (r : PassRef) (f : PassRec → PassRec) :
    (setPass s r f).pool.length = s.pool.length := by
  cases r with
  | none => rfl
  | some i =>
    simp only [setPass]
    cases s.pool[i]? <;> simp

lemma getPass_setPass_self (s : TreeState) (r : PassRef) (f : PassRec → PassRec) :
    getPass (setPass s r f) r = (getPass s r).map f := by
  cases r with
  | none => rfl
  | some i =>
    simp only [setPass, getPass]
    cases hp : s.pool[i]? with
    | none => simp [hp]
    | some p =>
      have hi := (List.getElem?_eq_some.mp hp).1
      simp [List.getElem?_set, hi, hp]

lemma getPass_setPass_ne (s : TreeState) (r r' : PassRef) (f : PassRec → PassRec)
    (h : r' ≠ r) : getPass (setPass s r f) r' = getPass s r' := by
  cases r with
  | none =>
    cases r' with
    | none => exact absurd rfl h
    | some j =>
      simp [setPass, getPass]
  | some i =>
    simp only [setPass]
    cases hp : s.pool[i]? with
    | none => rfl
    | some p =>
      cases r' with
      | none => rfl
      | some j =>
        have hij : i ≠ j := fun he => h (by rw [he])
        simp [getPass, List.getElem?_set, hij]

lemma hdrOK_mono {pl pl' cl cl' lo : Nat} (hp : pl ≤ pl') (hc : cl ≤ cl')
    (h : Header) : HdrOK pl cl lo h → HdrOK pl' cl' lo h := by
  rcases h with ⟨ty, idx⟩
  cases ty <;> simp [HdrOK] <;> omega

lemma treeInv_setPass (s : TreeState) (r : PassRef) (f : PassRec → PassRec)
    (hinv : TreeInv s)
    (hf : ∀ p, PassOK s.pool.length (loOf r) p → PassOK s.pool.length (loOf r) (f p)) :
    TreeInv (setPass s r f) := by
  intro r' p' hget'
  rw [setPass_poolLen]
  by_cases hr : r' = r
  · subst hr
    rw [getPass_setPass_self] at hget'
    cases hp : getPass s r' with
    | none => rw [hp] at hget'; simp at hget'
    | some p =>
      rw [hp] at hget'
      simp at hget'
      rw [← hget']
      exact hf p (hinv r' p hp)
  · rw [getPass_setPass_ne s r r' f hr] at hget'
    exact hinv r' p' hget'

lemma treeInv_createCommand (s : TreeState) (r : PassRef) (ty : CmdType) (c : Cmd)
    (hty : ty ≠ CmdType.subPass) (hinv : TreeInv s) :
    TreeInv (createCommand s r ty c) := by
  apply treeInv_setPass s r _ hinv
  intro p hp
  intro h hmem
  simp only [List.mem_append] at hmem
  rcases hmem with hold | hnew
  · have := hp h hold
    exact hdrOK_mono (le_refl _) (by simp) h this
  · simp at hnew
    subst hnew
    cases ty <;> simp [HdrOK] <;> first
      | exact absurd rfl hty
      | skip

lemma treeInv_init (nm : String) : TreeInv (initState nm) := by
  intro r p hget
  cases r with
  | none =>
    simp [getPass, initState] at hget
    subst hget
    intro h hmem
    simp at hmem
  | some i =>
    simp [getPass, initState] at hget

lemma treeInv_addSub (s : TreeState) (r : PassRef) (nm : String)
    (hinv : TreeInv s) : TreeInv (addSub s r nm) := by
  unfold addSub
  cases hp : getPass s r with
  | none => exact hinv
  | some parent =>
    have hlo : loOf r ≤ s.pool.length := by
      cases r with
      | none => exact Nat.zero_le _
      | some i =>
        simp only [getPass] at hp
        exact (List.getElem?_eq_some.mp hp).1
    set s1 : TreeState := { s with pool := s.pool ++ [⟨nm, [], [], parent.shader⟩] } with hs1
    have hinv1 : TreeInv s1 := by
      intro r' p' hget'
      cases r' with
      | none =>
        have hroot : p' = s.root := by
          simp [getPass, hs1] at hget'
          exact hget'.symm
        subst hroot
        have hold := hinv Option.none s.root rfl
        intro h hmem
        exact hdrOK_mono (by simp [hs1] : s.pool.length ≤ s1.pool.length)
          (le_refl _) h (hold h hmem)
      | some j =>
        simp only [getPass, hs1] at hget'
        by_cases hjl : j < s.pool.length
        · rw [List.getElem?_append_left hjl] at hget'
          have := hinv (some j) p' hget'
          intro h hmem
          exact hdrOK_mono (by simp [hs1]) (le_refl _) h (this h hmem)
        · have hj : j = s.pool.length := by
            rcases List.getElem?_eq_some.mp hget' with ⟨hlt, _⟩
            simp at hlt
            omega
          subst hj
          rw [List.getElem?_concat_length] at hget'
          simp at hget'
          subst hget'
          intro h hmem
          simp at hmem
    apply treeInv_setPass s1 r _ hinv1
    intro p hpok
    intro h hmem
    simp only [List.mem_append] at hmem
    rcases hmem with hold | hnew
    · exact hpok h hold
    · simp at hnew
      subst hnew
      have hpl : s1.pool.length = s.pool.length + 1 := by simp [hs1]
      simp [HdrOK, hpl]
      omega

lemma treeInv_step (sv : Services) (s : TreeState) (op : Op)
    (hinv : TreeInv s) : TreeInv (step sv s op) := by
  cases op with
  | state_set r st => exact treeInv_createCommand _ _ _ _ (by decide) hinv
  | state_stencil r w rf c => exact treeInv_createCommand _ _ _ _ (by decide) hinv
  | shader_set r sh =>
    apply treeInv_createCommand _ _ _ _ (by decide)
    apply treeInv_setPass s r _ hinv
    intro p hp
    exact hp
  | clear r bits color depth stencil =>
    exact treeInv_createCommand _ _ _ _ (by decide) hinv
  | barrier r ty => exact treeInv_createCommand _ _ _ _ (by decide) hinv
  | bind_slot r slot res => exact treeInv_createCommand _ _ _ _ (by decide) hinv
  | bind_name r nm res =>
    simp only [step]
    cases getPass s r with
    | none => exact hinv
    | some p => exact treeInv_createCommand _ _ _ _ (by decide) hinv
  | push_constant r nm compLen value =>
    simp only [step]
    cases getPass s r with
    | none => exact hinv
    | some p => exact treeInv_createCommand _ _ _ _ (by decide) hinv
  | push_constant_mat4_ref r nm ptr =>
    simp only [step]
    cases getPass s r with
    | none => exact hinv
    | some p => exact treeInv_createCommand _ _ _ _ (by decide) hinv
  | push_constant_mat4 r nm m =>
    simp only [step]
    cases getPass s r with
    | none => exact hinv
    | some p =>
      apply treeInv_createCommand _ _ _ _ (by decide)
      apply treeInv_createCommand _ _ _ _ (by decide)
      exact treeInv_createCommand _ _ _ _ (by decide) hinv
  | draw r batch il vl vf hd =>
    simp only [step]
    by_cases hz : il = 0 ∨ vl = 0
    · rw [if_pos hz]; exact hinv
    · rw [if_neg hz]; exact treeInv_createCommand _ _ _ _ (by decide) hinv
  | draw_indirect r batch buf hd =>
    exact treeInv_createCommand _ _ _ _ (by decide) hinv
  | dispatch r g => exact treeInv_createCommand _ _ _ _ (by decide) hinv
  | dispatch_ref r gref => exact treeInv_createCommand _ _ _ _ (by decide) hinv
  | dispatch_indirect r buf => exact treeInv_createCommand _ _ _ _ (by decide) hinv
  | sub r nm => exact treeInv_addSub _ _ _ hinv

lemma treeInv_foldl (sv : Services) :
    ∀ (ops : List Op) (s : TreeState), TreeInv s → TreeInv (ops.foldl (step sv) s) := by
  intro ops
  induction ops with
  | nil => intro s hs; exact hs
  | cons op rest ih =>
    intro s hs
    exact ih (step sv s op) (treeInv_step sv s op hs)

lemma treeInv_build (sv : Services) (nm : String) (ops : List Op) :
    TreeInv (build sv nm ops) :=
  treeInv_foldl sv ops (initState nm) (treeInv_init nm)

/-! ### Submission (`PassBase::submit`)

`submit` walks the header list; a `None` header is skipped (the `default:`
and `case Type::None:` labels share a `break`), a `SubPass` header recursively
submits the referenced pool element, and every other header dispatches the
indexed command to its `execute` routine.  The device back-end is external, so
the semantics is the trace of executed `(tag, command)` pairs.  Recursion
depth is bounded by fuel; running out of fuel (impossible for recorded states,
as proven below) and out-of-bounds indexing (undefined behaviour) are both
modelled as `Option.none`. -/

abbrev Event := CmdType × Cmd

/-- The events produced by one header, given a submitter `sub` for sub-pass
recursion: the body of the `switch` in `PassBase::submit`. -/
def execHeader (pool : List PassRec) (sub : PassRec → Option (List Event))
    (cmds : List Cmd) (h : Header) : Option (List Event) :=
  match h.type with
  | CmdType.none => some []
  | CmdType.subPass => (pool[h.index]?).bind sub
  | ty => (cmds[h.index]?).map fun c => [(ty, c)]

/-- The loop of `PassBase::submit` over the header list. -/
def submitHs (pool : List PassRec) (sub : PassRec → Option (List Event))
    (cmds : List Cmd) : List Header → Option (List Event)
  | [] => some []
  | h :: rest =>
    (execHeader pool sub cmds h).bind fun evs =>
      (submitHs pool sub cmds rest).map fun evs2 => evs ++ evs2

/-- `PassBase::submit` with explicit recursion fuel. -/
def submitAux (pool : List PassRec) : Nat → PassRec → Option (List Event)
  | 0, _ => Option.none
  | fuel + 1, p => submitHs pool (submitAux pool fuel) p.commands p.headers

/-- Submission of the pass `r` of a tree, with enough fuel for any recorded
state (one more than the pool size). -/
def submitP (s : TreeState) (r : PassRef) : Option (List Event) :=
  (getPass s r).bind (submitAux s.pool (s.pool.length + 1))

/-- The canonical (fuel-free) events of one header: nothing for `None`, the
full submission trace of the referenced sub-pass for `SubPass`, and the single
execute event of the indexed command otherwise. -/
def hdrEvents (pool : List PassRec) (cmds : List Cmd) (h : Header) : List Event :=
  (execHeader pool (submitAux pool (pool.length + 1)) cmds h).getD []

/-- Master characterization: on a pool satisfying the header invariant, the
submission loop with any sufficient fuel succeeds and returns the depth-first
concatenation of the per-header event lists, evaluated at canonical fuel.
Induction is on `pool.length - lo`: recursion into a sub-pass strictly raises
the lower bound `lo` on reachable pool indices. -/
lemma submitHs_char (pool : List PassRec)
    (hpool : ∀ j q, pool[j]? = some q → PassOK pool.length (j + 1) q) :
    ∀ (n lo : Nat), n = pool.length - lo →
      ∀ (fuel : Nat), pool.length ≤ fuel + lo →
        ∀ (cmds : List Cmd) (hs : List Header),
          (∀ h ∈ hs, HdrOK pool.length cmds.length lo h) →
          submitHs pool (submitAux pool fuel) cmds hs
            = some (hs.flatMap (hdrEvents pool cmds)) := by
  intro n
  induction n using Nat.strong_induction_on with
  | _ n ih =>
    intro lo hn fuel hfuel cmds hs
    induction hs with
    | nil => intro _; simp [submitHs]
    | cons h rest ihr =>
      intro hb
      have hbh := hb h (by simp)
      have hrest := ihr (fun h' hm => hb h' (by simp [hm]))
      rcases h with ⟨ty, idx⟩
      cases ty
      case subPass =>
        obtain ⟨hlo2, hidx⟩ : lo ≤ idx ∧ idx < pool.length := by
          simpa [HdrOK] using hbh
        have hsp : pool[idx]? = some pool[idx] := List.getElem?_eq_getElem hidx
        have hspok := hpool idx pool[idx] hsp
        obtain ⟨f, rfl⟩ : ∃ f, fuel = f + 1 := ⟨fuel - 1, by omega⟩
        have hsub1 := ih (pool.length - (idx + 1)) (by omega) (idx + 1) rfl f
          (by omega) (pool[idx]).commands (pool[idx]).headers hspok
        have hsub2 := ih (pool.length - (idx + 1)) (by omega) (idx + 1) rfl pool.length
          (by omega) (pool[idx]).commands (pool[idx]).headers hspok
        have hA1 : submitAux pool (f + 1) pool[idx]
            = some ((pool[idx]).headers.flatMap (hdrEvents pool (pool[idx]).commands)) := by
          simp only [submitAux]
          exact hsub1
        have hA2 : submitAux pool (pool.length + 1) pool[idx]
            = some ((pool[idx]).headers.flatMap (hdrEvents pool (pool[idx]).commands)) := by
          simp only [submitAux]
          exact hsub2
        simp [submitHs, execHeader, hsp, hA1, hA2, hrest, hdrEvents]
      case none =>
        simp [submitHs, execHeader, hrest, hdrEvents]
      all_goals
        have hidx : idx < cmds.length := by simpa [HdrOK] using hbh
        have hc : cmds[idx]? = some cmds[idx] := List.getElem?_eq_getElem hidx
        simp [submitHs, execHeader, hc, hrest, hdrEvents]

/-- Trivial concrete instantiation of the external services, used by
witnesses. -/
def svTriv : Services :=
  ⟨fun _ _ => 0, fun _ _ => 0, fun _ => "", fun _ _ => []⟩

/-- C1: for every recorded state and every pass of it, `submit` succeeds and
executes commands depth-first in exactly header-append order: each `None`
header contributes nothing, each `SubPass` header contributes the whole
submission trace of the referenced sub-pass at the header's position, and
every other header contributes exactly the execute event of its indexed
command (`hdrEvents`). -/
theorem pass_submit_depth_first (sv : Services) (nm : String) (ops : List Op)
    (r : PassRef) (p : PassRec) (hget : getPass (build sv nm ops) r = some p) :
    submitP (build sv nm ops) r
      = some (p.headers.flatMap (hdrEvents (build sv nm ops).pool p.commands)) := by
  have hinv := treeInv_build sv nm ops
  have hpool : ∀ j q, (build sv nm ops).pool[j]? = some q →
      PassOK (build sv nm ops).pool.length (j + 1) q :=
    fun j q hq => hinv (some j) q hq
  have hps := hinv r p hget
  have hchar := submitHs_char (build sv nm ops).pool hpool
    ((build sv nm ops).pool.length - loOf r) (loOf r) rfl
    (build sv nm ops).pool.length (by omega) p.commands p.headers hps
  simp only [submitP, hget, Option.some_bind]
  simp only [submitAux]
  exact hchar

/-- Witness for `pass_submit_depth_first`: a shader bind, then a sub-pass with
one bind recorded inside it, then a barrier; the sub-pass's command is
replayed between the two root commands, at the position of the sub-pass
header. -/
theorem pass_submit_depth_first_witness :
    submitP (build svTriv "p"
        [Op.shader_set Option.none 1, Op.sub Option.none "a",
         Op.bind_slot (some 0) 3 7, Op.barrier Option.none 2]) Option.none
      = some [(CmdType.shaderBind, Cmd.shaderBind 1),
              (CmdType.resourceBind, Cmd.resourceBind 3 7),
              (CmdType.barrier, Cmd.barrierCmd 2)] := by
  rw [pass_submit_depth_first svTriv "p"
    [Op.shader_set Option.none 1, Op.sub Option.none "a",
     Op.bind_slot (some 0) 3 7, Op.barrier Option.none 2] Option.none _ rfl]
  decide

/-- Same statement as the C1 theorem, as a shared lemma for reuse. -/
lemma submitP_char (sv : Services) (nm : String) (ops : List Op)
    (r : PassRef) (p : PassRec) (hget : getPass (build sv nm ops) r = some p) :
    submitP (build sv nm ops) r
      = some (p.headers.flatMap (hdrEvents (build sv nm ops).pool p.commands)) := by
  have hinv := treeInv_build sv nm ops
  have hpool : ∀ j q, (build sv nm ops).pool[j]? = some q →
      PassOK (build sv nm ops).pool.length (j + 1) q :=
    fun j q hq => hinv (some j) q hq
  have hps := hinv r p hget
  have hchar := submitHs_char (build sv nm ops).pool hpool
    ((build sv nm ops).pool.length - loOf r) (loOf r) rfl
    (build sv nm ops).pool.length (by omega) p.commands p.headers hps
  simp only [submitP, hget, Option.some_bind]
  simp only [submitAux]
  exact hchar

/-- C10: in every recorded state, every header of every pass indexes valid
storage: a `SubPass` header points inside the shared pool, any other header
points inside the command storage of its own pass. -/
theorem recording_headers_in_bounds (sv : Services) (nm : String) (ops : List Op)
    (r : PassRef) (p : PassRec) (hget : getPass (build sv nm ops) r = some p) :
    ∀ h ∈ p.headers,
      (h.type = CmdType.subPass → h.index < (build sv nm ops).pool.length) ∧
      (h.type ≠ CmdType.subPass → h.index < p.commands.length) := by
  have hinv := treeInv_build sv nm ops
  have hps := hinv r p hget
  intro h hmem
  have hh := hps h hmem
  rcases h with ⟨ty, idx⟩
  cases ty <;> simp_all [HdrOK] <;> omega

/-- Witness for `recording_headers_in_bounds`: after creating one sub-pass,
the root's `SubPass` header (index 0) is inside the pool. -/
theorem recording_headers_in_bounds_witness :
    (⟨CmdType.subPass, 0⟩ : Header).index
      < (build svTriv "p" [Op.sub Option.none "a", Op.barrier (some 0) 3]).pool.length := by
  have h := recording_headers_in_bounds svTriv "p"
    [Op.sub Option.none "a", Op.barrier (some 0) 3]
    Option.none _ rfl ⟨CmdType.subPass, 0⟩ (by decide)
  exact h.1 rfl

/-- C2 counterexample: a `dispatch` with group count `(0, 0, 0)` is recorded
anyway — `PassBase::dispatch` has no zero check — so the stream length of the
pass changes, contradicting the claim that zero-count dispatch calls append
nothing. -/
theorem dispatch_zero_recorded :
    ¬ ((build svTriv "p" [Op.dispatch Option.none (0, 0, 0)]).root.headers.length
        = (build svTriv "p" []).root.headers.length) := by
  decide

/-- C2 (amended): a `draw` call with instance count 0 or vertex count 0
appends no header and no command anywhere — the whole recorded state is
unchanged.  (Dispatch calls are recorded unconditionally, see the
counterexample.) -/
theorem draw_zero_not_recorded (sv : Services) (nm : String) (ops : List Op)
    (r : PassRef) (batch il vl vf hd : Nat) (hz : il = 0 ∨ vl = 0) :
    build sv nm (ops ++ [Op.draw r batch il vl vf hd]) = build sv nm ops := by
  unfold build
  rw [List.foldl_append]
  simp only [List.foldl_cons, List.foldl_nil, step]
  rw [if_pos hz]

/-- Witness for `draw_zero_not_recorded`: a zero-instance draw into a fresh
pass records nothing. -/
theorem draw_zero_not_recorded_witness :
    build svTriv "p" [Op.draw Option.none 4 0 6 0 0] = build svTriv "p" [] :=
  draw_zero_not_recorded svTriv "p" [] Option.none 4 0 6 0 0 (Or.inl rfl)

lemma getPass_createCommand_self (s : TreeState) (r : PassRef) (ty : CmdType) (c : Cmd) :
    getPass (createCommand s r ty c) r
      = (getPass s r).map fun p =>
          { p with
            commands := p.commands ++ [c],
            headers := p.headers ++ [⟨ty, p.commands.length⟩] } := by
  unfold createCommand
  exact getPass_setPass_self s r _

lemma flatMap_congr_on {α β : Type _} {l : List α} {f g : α → List β}
    (h : ∀ a ∈ l, f a = g a) : l.flatMap f = l.flatMap g := by
  induction l with
  | nil => simp
  | cons a t ih =>
    simp only [List.flatMap_cons]
    rw [h a (by simp), ih (fun x hx => h x (by simp [hx]))]

lemma hdrEvents_cmds_extend (pool : List PassRec) (cmds extra : List Cmd) (h : Header)
    (hh : h.type ≠ CmdType.subPass → h.index < cmds.length) :
    hdrEvents pool (cmds ++ extra) h = hdrEvents pool cmds h := by
  rcases h with ⟨ty, idx⟩
  cases ty
  case subPass => rfl
  case none => rfl
  all_goals
    have hidx : idx < cmds.length := hh (by simp)
    simp [hdrEvents, execHeader, List.getElem?_append_left hidx]

lemma build_snoc (sv : Services) (nm : String) (ops : List Op) (op : Op) :
    build sv nm (ops ++ [op]) = step sv (build sv nm ops) op := by
  unfold build
  rw [List.foldl_append]
  rfl

lemma hdrOK_cmd_bound {pl cl lo : Nat} {h : Header} (hh : HdrOK pl cl lo h)
    (hns : h.type ≠ CmdType.subPass) : h.index < cl := by
  rcases h with ⟨ty, idx⟩
  cases ty
  case subPass => exact absurd rfl hns
  all_goals simpa [HdrOK] using hh

/-- C4: recording a 4x4-matrix push constant on any pass appends exactly three
consecutive headers — one `PushConstant` at slot `n` and two `None`
placeholders at slots `n+1`, `n+2` — and three consecutive command slots: the
`PushConstant` payload carrying the whole matrix value followed by two
uninterpreted placeholder slots.  On submission the pass replays its previous
trace and then exactly one `PushConstant` execute event: the two `None`
headers are skipped without executing anything (shown in general, and as an
explicit before/after trace equation for the root pass). -/
theorem push_constant_mat4_three_slots (sv : Services) (nm : String) (ops : List Op)
    (r : PassRef) (uname : String) (m : List FVal) (p : PassRec)
    (hget : getPass (build sv nm ops) r = some p) :
    getPass (build sv nm (ops ++ [Op.push_constant_mat4 r uname m])) r
      = some { p with
          headers := p.headers ++
            [⟨CmdType.pushConstant, p.commands.length⟩,
             ⟨CmdType.none, p.commands.length + 1⟩,
             ⟨CmdType.none, p.commands.length + 2⟩],
          commands := p.commands ++
            [Cmd.pushConst (sv.resolveUniform p.shader uname) 1 16 m,
             Cmd.undet, Cmd.undet] } ∧
    submitP (build sv nm (ops ++ [Op.push_constant_mat4 r uname m])) r
      = some (p.headers.flatMap
            (hdrEvents (build sv nm (ops ++ [Op.push_constant_mat4 r uname m])).pool
              p.commands)
          ++ [(CmdType.pushConstant,
               Cmd.pushConst (sv.resolveUniform p.shader uname) 1 16 m)]) ∧
    (r = Option.none →
      submitP (build sv nm (ops ++ [Op.push_constant_mat4 r uname m])) Option.none
        = some ((submitP (build sv nm ops) Option.none).getD []
            ++ [(CmdType.pushConstant,
                 Cmd.pushConst (sv.resolveUniform p.shader uname) 1 16 m)])) := by
  have hS' : build sv nm (ops ++ [Op.push_constant_mat4 r uname m])
      = createCommand
          (createCommand
            (createCommand (build sv nm ops) r CmdType.pushConstant
              (Cmd.pushConst (sv.resolveUniform p.shader uname) 1 16 m))
            r CmdType.none Cmd.undet)
          r CmdType.none Cmd.undet := by
    rw [build_snoc]
    simp only [step, hget]
  have hg3 : getPass (build sv nm (ops ++ [Op.push_constant_mat4 r uname m])) r
      = some { p with
          headers := p.headers ++
            [⟨CmdType.pushConstant, p.commands.length⟩,
             ⟨CmdType.none, p.commands.length + 1⟩,
             ⟨CmdType.none, p.commands.length + 2⟩],
          commands := p.commands ++
            [Cmd.pushConst (sv.resolveUniform p.shader uname) 1 16 m,
             Cmd.undet, Cmd.undet] } := by
    rw [hS', getPass_createCommand_self, getPass_createCommand_self,
      getPass_createCommand_self, hget]
    simp
  refine ⟨hg3, ?_, ?_⟩
  · have hsub := submitP_char sv nm (ops ++ [Op.push_constant_mat4 r uname m]) r _ hg3
    rw [hsub]
    simp only
    rw [List.flatMap_append]
    have hinvS := treeInv_build sv nm ops
    have hps := hinvS r p hget
    have hA : p.headers.flatMap
          (hdrEvents (build sv nm (ops ++ [Op.push_constant_mat4 r uname m])).pool
            (p.commands ++
              [Cmd.pushConst (sv.resolveUniform p.shader uname) 1 16 m,
               Cmd.undet, Cmd.undet]))
        = p.headers.flatMap
            (hdrEvents (build sv nm (ops ++ [Op.push_constant_mat4 r uname m])).pool
              p.commands) := by
      apply flatMap_congr_on
      intro h hm
      exact hdrEvents_cmds_extend _ _ _ h (fun hns => hdrOK_cmd_bound (hps h hm) hns)
    have hB : ([⟨CmdType.pushConstant, p.commands.length⟩,
                ⟨CmdType.none, p.commands.length + 1⟩,
                ⟨CmdType.none, p.commands.length + 2⟩] : List Header).flatMap
          (hdrEvents (build sv nm (ops ++ [Op.push_constant_mat4 r uname m])).pool
            (p.commands ++
              [Cmd.pushConst (sv.resolveUniform p.shader uname) 1 16 m,
               Cmd.undet, Cmd.undet]))
        = [(CmdType.pushConstant,
            Cmd.pushConst (sv.resolveUniform p.shader uname) 1 16 m)] := by
      simp only [List.flatMap_cons, List.flatMap_nil, List.append_nil]
      rw [show (hdrEvents (build sv nm (ops ++ [Op.push_constant_mat4 r uname m])).pool
            (p.commands ++
              [Cmd.pushConst (sv.resolveUniform p.shader uname) 1 16 m,
               Cmd.undet, Cmd.undet])
            ⟨CmdType.none, p.commands.length + 1⟩) = [] from rfl]
      rw [show (hdrEvents (build sv nm (ops ++ [Op.push_constant_mat4 r uname m])).pool
            (p.commands ++
              [Cmd.pushConst (sv.resolveUniform p.shader uname) 1 16 m,
               Cmd.undet, Cmd.undet])
            ⟨CmdType.none, p.commands.length + 2⟩) = [] from rfl]
      simp only [hdrEvents, execHeader]
      rw [List.getElem?_append_right (Nat.le_refl _)]
      simp
    rw [hA, hB]
  · intro hr
    subst hr
    have hpool : (build sv nm (ops ++ [Op.push_constant_mat4 Option.none uname m])).pool
        = (build sv nm ops).pool := by
      rw [hS']
      rfl
    have hsub := submitP_char sv nm (ops ++ [Op.push_constant_mat4 Option.none uname m])
      Option.none _ hg3
    rw [hsub]
    have hold := submitP_char sv nm ops Option.none p hget
    rw [hold]
    simp only [Option.getD_some]
    rw [List.flatMap_append]
    have hps := treeInv_build sv nm ops Option.none p hget
    have hA : p.headers.flatMap
          (hdrEvents (build sv nm (ops ++ [Op.push_constant_mat4 Option.none uname m])).pool
            (p.commands ++
              [Cmd.pushConst (sv.resolveUniform p.shader uname) 1 16 m,
               Cmd.undet, Cmd.undet]))
        = p.headers.flatMap (hdrEvents (build sv nm ops).pool p.commands) := by
      rw [hpool]
      apply flatMap_congr_on
      intro h hm
      exact hdrEvents_cmds_extend _ _ _ h (fun hns => hdrOK_cmd_bound (hps h hm) hns)
    have hB : ([⟨CmdType.pushConstant, p.commands.length⟩,
                ⟨CmdType.none, p.commands.length + 1⟩,
                ⟨CmdType.none, p.commands.length + 2⟩] : List Header).flatMap
          (hdrEvents (build sv nm (ops ++ [Op.push_constant_mat4 Option.none uname m])).pool
            (p.commands ++
              [Cmd.pushConst (sv.resolveUniform p.shader uname) 1 16 m,
               Cmd.undet, Cmd.undet]))
        = [(CmdType.pushConstant,
            Cmd.pushConst (sv.resolveUniform p.shader uname) 1 16 m)] := by
      simp only [List.flatMap_cons, List.flatMap_nil, List.append_nil]
      rw [show (hdrEvents (build sv nm (ops ++ [Op.push_constant_mat4 Option.none uname m])).pool
            (p.commands ++
              [Cmd.pushConst (sv.resolveUniform p.shader uname) 1 16 m,
               Cmd.undet, Cmd.undet])
            ⟨CmdType.none, p.commands.length + 1⟩) = [] from rfl]
      rw [show (hdrEvents (build sv nm (ops ++ [Op.push_constant_mat4 Option.none uname m])).pool
            (p.commands ++
              [Cmd.pushConst (sv.resolveUniform p.shader uname) 1 16 m,
               Cmd.undet, Cmd.undet])
            ⟨CmdType.none, p.commands.length + 2⟩) = [] from rfl]
      simp only [hdrEvents, execHeader]
      rw [List.getElem?_append_right (Nat.le_refl _)]
      simp
    rw [hA, hB]

/-- Witness for `push_constant_mat4_three_slots`: a matrix push constant on a
fresh root pass yields three headers, three command slots, and a one-event
trace. -/
theorem push_constant_mat4_three_slots_witness :
    getPass (build svTriv "p" ([] ++ [Op.push_constant_mat4 Option.none "u" [3]]))
        Option.none
      = some { name := "p",
               headers := [⟨CmdType.pushConstant, 0⟩, ⟨CmdType.none, 1⟩, ⟨CmdType.none, 2⟩],
               commands := [Cmd.pushConst 0 1 16 [3], Cmd.undet, Cmd.undet],
               shader := Option.none } ∧
    submitP (build svTriv "p" ([] ++ [Op.push_constant_mat4 Option.none "u" [3]]))
        Option.none
      = some [(CmdType.pushConstant, Cmd.pushConst 0 1 16 [3])] := by
  have h := push_constant_mat4_three_slots svTriv "p" [] Option.none "u" [3]
    ((initState "p").root) rfl
  refine ⟨h.1.trans (by decide), ?_⟩
  have h2 := h.2.1
  rw [h2]
  decide

/-! ## PassSortable (`draw_pass.hh`)

`PassSortable` adds to `PassMain` a vector `sorting_values_` (one float per
`sub()` call, indexed by the sub-pass pool index stored in the header) and a
`sorted_` flag.  `sort()` reorders the header list with
`a_val < b_val || (a_val == b_val && a.index < b.index)` — a strict total
order whenever header indices are distinct, which makes the sorted result
unique; the embedding computes it with insertion sort over the reflexive
closure of that comparator.  Only the fields involved in sorting are modelled:
the headers of the sortable (root) pass, the key vector, the pool length
(which supplies fresh sub-pass indices), and the flag. -/

structure SortState where
  headers : List Header
  vals : List FVal
  poolLen : Nat
  sorted : Bool
deriving DecidableEq, Repr

/-- `PassSortable::init`: clears `sorting_values_`, resets `sorted_`, and
`PassMain::init()` clears headers, commands and the sub-pass pool. -/
def PSinit (s : SortState) : SortState := ⟨[], [], 0, false⟩

/-- `PassSortable::sub(name, sorting_value)`: appends a sub-pass to the pool,
a `SubPass` header holding its index, and the sorting value.  It does not
touch `sorted_`. -/
def PSsub (s : SortState) (v : FVal) : SortState :=
  ⟨s.headers ++ [⟨CmdType.subPass, s.poolLen⟩], s.vals ++ [v], s.poolLen + 1, s.sorted⟩

def PSsubs (s : SortState) (ks : List FVal) : SortState := ks.foldl PSsub s

/-- `sorting_values_[h.index]` (defined reads only occur at indices recorded
by `PSsub`). -/
def keyOf (vals : List FVal) (h : Header) : FVal := vals.getD h.index 0

/-- Reflexive closure of the sort comparator
`a_val < b_val || (a_val == b_val && a.index < b.index)`. -/
def hdrLE (vals : List FVal) (a b : Header) : Prop :=
  keyOf vals a < keyOf vals b ∨ (keyOf vals a = keyOf vals b ∧ a.index ≤ b.index)

instance instHdrLEDec (vals : List FVal) : DecidableRel (hdrLE vals) :=
  fun a b => inferInstanceAs (Decidable (_ ∨ _ ∧ _))

def sortHeaders (vals : List FVal) (hs : List Header) : List Header :=
  List.insertionSort (hdrLE vals) hs

/-- `PassSortable::sort`: sorts the headers and sets `sorted_`, only when the
flag is not already set. -/
def PSsort (s : SortState) : SortState :=
  if s.sorted = false then
    { s with headers := sortHeaders s.vals s.headers, sorted := true }
  else s

/-- The state effect of `PassSortable::serialize` (which calls `sort()`
through `const_cast` when `sorted_` is unset, then delegates to
`PassMain::serialize`). -/
def PSserializeState (s : SortState) : SortState :=
  if s.sorted = false then PSsort s else s

lemma psSubs_spec : ∀ (ks : List FVal) (s : SortState),
    PSsubs s ks
      = ⟨s.headers ++ (List.range' s.poolLen ks.length).map (fun i => ⟨CmdType.subPass, i⟩),
         s.vals ++ ks, s.poolLen + ks.length, s.sorted⟩ := by
  intro ks
  induction ks with
  | nil => intro s; simp [PSsubs]
  | cons k rest ih =>
    intro s
    have h1 : PSsubs s (k :: rest) = PSsubs (PSsub s k) rest := rfl
    rw [h1, ih]
    simp [PSsub, List.range'_succ]
    omega

lemma psSubs_init (s0 : SortState) (ks : List FVal) :
    PSsubs (PSinit s0) ks
      = ⟨(List.range ks.length).map (fun i => ⟨CmdType.subPass, i⟩), ks, ks.length, false⟩ := by
  rw [psSubs_spec]
  simp [PSinit, List.range_eq_range']

lemma hdrLE_total (vals : List FVal) : IsTotal Header (hdrLE vals) := by
  constructor
  intro a b
  unfold hdrLE
  rcases lt_trichotomy (keyOf vals a) (keyOf vals b) with h | h | h
  · exact Or.inl (Or.inl h)
  · rcases Nat.le_total a.index b.index with hi | hi
    · exact Or.inl (Or.inr ⟨h, hi⟩)
    · exact Or.inr (Or.inr ⟨h.symm, hi⟩)
  · exact Or.inr (Or.inl h)

lemma hdrLE_trans (vals : List FVal) : IsTrans Header (hdrLE vals) := by
  constructor
  intro a b c hab hbc
  unfold hdrLE at hab hbc ⊢
  rcases hab with h1 | ⟨e1, i1⟩ <;> rcases hbc with h2 | ⟨e2, i2⟩
  · exact Or.inl (lt_trans h1 h2)
  · exact Or.inl (by rw [← e2]; exact h1)
  · exact Or.inl (by rw [e1]; exact h2)
  · exact Or.inr ⟨e1.trans e2, le_trans i1 i2⟩

/-- C5: after sorting a `PassSortable` built by a sequence of keyed `sub()`
additions, the header list is a permutation of the recorded one (whose n-th
header carries sub-pass index n, the insertion index), ordered by
non-decreasing sort key, with equal-key headers in ascending original
insertion index. -/
theorem sortable_sort_orders_by_key (s0 : SortState) (ks : List FVal) :
    (PSsubs (PSinit s0) ks).headers
        = (List.range ks.length).map (fun i => ⟨CmdType.subPass, i⟩) ∧
    ((PSsort (PSsubs (PSinit s0) ks)).headers).Perm ((PSsubs (PSinit s0) ks)).headers ∧
    (PSsort (PSsubs (PSinit s0) ks)).headers.Pairwise
      (fun a b => keyOf ks a ≤ keyOf ks b ∧ (keyOf ks a = keyOf ks b → a.index < b.index)) := by
  rw [psSubs_init]
  refine ⟨rfl, ?_, ?_⟩
  · simp only [PSsort, if_pos rfl, sortHeaders]
    exact List.perm_insertionSort _ _
  · haveI := hdrLE_total ks
    haveI := hdrLE_trans ks
    have hsorted : List.Pairwise (hdrLE ks)
        (List.insertionSort (hdrLE ks)
          ((List.range ks.length).map (fun i => ⟨CmdType.subPass, i⟩))) :=
      List.sorted_insertionSort (hdrLE ks) _
    have hperm : (List.insertionSort (hdrLE ks)
          ((List.range ks.length).map (fun i => (⟨CmdType.subPass, i⟩ : Header)))).Perm
        ((List.range ks.length).map (fun i => ⟨CmdType.subPass, i⟩)) :=
      List.perm_insertionSort _ _
    have hne0 : List.Pairwise (fun a b : Header => a.index ≠ b.index)
        ((List.range ks.length).map (fun i => ⟨CmdType.subPass, i⟩)) := by
      rw [List.pairwise_map]
      exact (List.pairwise_lt_range ks.length).imp (fun hab => Nat.ne_of_lt hab)
    have hne : List.Pairwise (fun a b : Header => a.index ≠ b.index)
        (List.insertionSort (hdrLE ks)
          ((List.range ks.length).map (fun i => ⟨CmdType.subPass, i⟩))) :=
      (List.Perm.pairwise_iff (fun hxy => Ne.symm hxy) hperm).mpr hne0
    simp only [PSsort, if_pos rfl, sortHeaders]
    exact (hsorted.and hne).imp (fun hab => by
      rcases hab with ⟨hle, hnei⟩
      unfold hdrLE at hle
      constructor
      · rcases hle with h | ⟨he, _⟩
        · exact le_of_lt h
        · exact le_of_eq he
      · intro hk
        rcases hle with h | ⟨_, hle2⟩
        · exact absurd hk (ne_of_lt h)
        · exact Nat.lt_of_le_of_ne hle2 hnei)

/-- C8: the sorted flag makes sorting lazy and idempotent: `init()` resets the
flag; `sort()` on an already-sorted pass is the identity and `sort ∘ sort =
sort`; the first `serialize` after `init()` plus any sequence of keyed `sub()`
additions sorts the headers, and a second `serialize` (or `sort`) leaves the
state — in particular the header order — unchanged. -/
theorem sortable_sort_once_per_init (s0 t : SortState) (ks : List FVal) :
    (PSinit s0).sorted = false ∧
    (t.sorted = true → PSsort t = t) ∧
    PSsort (PSsort t) = PSsort t ∧
    (PSserializeState (PSsubs (PSinit s0) ks)).headers
        = sortHeaders ks (PSsubs (PSinit s0) ks).headers ∧
    PSserializeState (PSserializeState t) = PSserializeState t := by
  refine ⟨rfl, ?_, ?_, ?_, ?_⟩
  · intro ht
    simp [PSsort, ht]
  · cases ht : t.sorted <;> simp [PSsort, ht]
  · rw [psSubs_init]
    simp [PSserializeState, PSsort]
  · cases ht : t.sorted <;> simp [PSserializeState, PSsort, ht]

/-- Witness for `sortable_sort_once_per_init`: sorting an already-sorted state
is the identity, and the first read after `init` plus keyed additions with
keys 5 and 2 swaps the two sub-pass headers. -/
theorem sortable_sort_once_per_init_witness :
    PSsort (⟨[], [], 0, true⟩ : SortState) = ⟨[], [], 0, true⟩ ∧
    (PSserializeState (PSsubs (PSinit ⟨[], [], 0, true⟩) [5, 2])).headers
      = [⟨CmdType.subPass, 1⟩, ⟨CmdType.subPass, 0⟩] := by
  have h := sortable_sort_once_per_init ⟨[], [], 0, true⟩ ⟨[], [], 0, true⟩ [5, 2]
  refine ⟨h.2.1 rfl, ?_⟩
  rw [h.2.2.2.1]
  decide

/-! ## Serialization (`PassBase::serialize`)

`serialize(line_prefix)` emits one line `line_prefix + "." + debug_name`, then
increments the prefix by the fixed step `"  "` and walks the headers: `None`
headers are skipped, a `SubPass` header splices the sub-pass's own
serialization at the incremented prefix, a `DrawMulti` command prints its own
(prefix-aware) multi-line output, and every other command contributes the line
`prefix + command.serialize()`.  The output is modelled as the list of lines
(each terminated by `std::endl` when joined). -/

/-- The `switch` body of the serialization loop, for one header. -/
def serialHdr (pool : List PassRec) (sv : Services)
    (serSub : PassRec → Option (List String)) (cmds : List Cmd) (pfx : String)
    (h : Header) : Option (List String) :=
  match h.type with
  | CmdType.none => some []
  | CmdType.subPass => (pool[h.index]?).bind serSub
  | CmdType.drawMulti => (cmds[h.index]?).map fun c => sv.serializeMulti c pfx
  | _ => (cmds[h.index]?).map fun c => [pfx ++ sv.serializeCmd c]

/-- The serialization loop over the header list. -/
def serialHs (pool : List PassRec) (sv : Services)
    (serSub : PassRec → Option (List String)) (cmds : List Cmd) (pfx : String) :
    List Header → Option (List String)
  | [] => some []
  | h :: rest =>
    (serialHdr pool sv serSub cmds pfx h).bind fun ls =>
      (serialHs pool sv serSub cmds pfx rest).map fun ls2 => ls ++ ls2

/-- `PassBase::serialize` with explicit recursion fuel: the pass's name line
at the given prefix, then the loop at the incremented prefix
(`line_prefix += "  "`). -/
def serialAux (sv : Services) (pool : List PassRec) :
    Nat → PassRec → String → Option (List String)
  | 0, _, _ => Option.none
  | fuel + 1, p, pfx =>
    (serialHs pool sv (fun sp => serialAux sv pool fuel sp (pfx ++ "  "))
        p.commands (pfx ++ "  ") p.headers).map
      fun ls => (pfx ++ "." ++ p.name) :: ls

/-- Serialization (as lines) of the pass `r` of a tree, with fuel sufficient
for any recorded state. -/
def serializeLines (s : TreeState) (sv : Services) (r : PassRef) (pfx : String) :
    Option (List String) :=
  (getPass s r).bind fun p => serialAux sv s.pool (s.pool.length + 1) p pfx

/-- The serialized string: the lines joined, each followed by a newline. -/
def serializeStr (s : TreeState) (sv : Services) (r : PassRef) (pfx : String) :
    Option String :=
  (serializeLines s sv r pfx).map fun ls => String.join (ls.map (fun l => l ++ "\n"))

/-- The canonical (fuel-free) lines of one header. -/
def hdrLines (sv : Services) (pool : List PassRec) (cmds : List Cmd) (pfx : String)
    (h : Header) : List String :=
  (serialHdr pool sv (fun sp => serialAux sv pool (pool.length + 1) sp pfx)
    cmds pfx h).getD []

/-- Serialization analogue of `submitHs_char`: on an invariant-satisfying
pool, the serialization loop with any sufficient fuel succeeds and returns the
depth-first concatenation of the per-header line lists at canonical fuel. -/
lemma serialHs_char (sv : Services) (pool : List PassRec)
    (hpool : ∀ j q, pool[j]? = some q → PassOK pool.length (j + 1) q) :
    ∀ (n lo : Nat), n = pool.length - lo →
      ∀ (fuel : Nat), pool.length ≤ fuel + lo →
        ∀ (cmds : List Cmd) (pfx : String) (hs : List Header),
          (∀ h ∈ hs, HdrOK pool.length cmds.length lo h) →
          serialHs pool sv (fun sp => serialAux sv pool fuel sp pfx) cmds pfx hs
            = some (hs.flatMap (hdrLines sv pool cmds pfx)) := by
  intro n
  induction n using Nat.strong_induction_on with
  | _ n ih =>
    intro lo hn fuel hfuel cmds pfx hs
    induction hs with
    | nil => intro _; simp [serialHs]
    | cons h rest ihr =>
      intro hb
      have hbh := hb h (by simp)
      have hrest := ihr (fun h' hm => hb h' (by simp [hm]))
      rcases h with ⟨ty, idx⟩
      cases ty
      case subPass =>
        obtain ⟨hlo2, hidx⟩ : lo ≤ idx ∧ idx < pool.length := by
          simpa [HdrOK] using hbh
        have hsp : pool[idx]? = some pool[idx] := List.getElem?_eq_getElem hidx
        have hspok := hpool idx pool[idx] hsp
        obtain ⟨f, rfl⟩ : ∃ f, fuel = f + 1 := ⟨fuel - 1, by omega⟩
        have hsub1 := ih (pool.length - (idx + 1)) (by omega) (idx + 1) rfl f
          (by omega) (pool[idx]).commands (pfx ++ "  ") (pool[idx]).headers hspok
        have hsub2 := ih (pool.length - (idx + 1)) (by omega) (idx + 1) rfl pool.length
          (by omega) (pool[idx]).commands (pfx ++ "  ") (pool[idx]).headers hspok
        have hA1 : serialAux sv pool (f + 1) pool[idx] pfx
            = some ((pfx ++ "." ++ (pool[idx]).name)
                :: (pool[idx]).headers.flatMap
                    (hdrLines sv pool (pool[idx]).commands (pfx ++ "  "))) := by
          simp only [serialAux]
          rw [hsub1]
          rfl
        have hA2 : serialAux sv pool (pool.length + 1) pool[idx] pfx
            = some ((pfx ++ "." ++ (pool[idx]).name)
                :: (pool[idx]).headers.flatMap
                    (hdrLines sv pool (pool[idx]).commands (pfx ++ "  "))) := by
          simp only [serialAux]
          rw [hsub2]
          rfl
        simp [serialHs, serialHdr, hsp, hA1, hA2, hrest, hdrLines]
      case none =>
        simp [serialHs, serialHdr, hrest, hdrLines]
      case drawMulti =>
        have hidx : idx < cmds.length := by simpa [HdrOK] using hbh
        have hc : cmds[idx]? = some cmds[idx] := List.getElem?_eq_getElem hidx
        simp [serialHs, serialHdr, hc, hrest, hdrLines]
      all_goals
        have hidx : idx < cmds.length := by simpa [HdrOK] using hbh
        have hc : cmds[idx]? = some cmds[idx] := List.getElem?_eq_getElem hidx
        simp [serialHs, serialHdr, hc, hrest, hdrLines]

/-- Serialization of a recorded pass: the name line at the given prefix,
followed by the per-header lines at the one-step-deeper prefix. -/
lemma serializeLines_char (sv : Services) (nm : String) (ops : List Op)
    (r : PassRef) (p : PassRec) (pfx : String)
    (hget : getPass (build sv nm ops) r = some p) :
    serializeLines (build sv nm ops) sv r pfx
      = some ((pfx ++ "." ++ p.name)
          :: p.headers.flatMap
              (hdrLines sv (build sv nm ops).pool p.commands (pfx ++ "  "))) := by
  have hinv := treeInv_build sv nm ops
  have hpool : ∀ j q, (build sv nm ops).pool[j]? = some q →
      PassOK (build sv nm ops).pool.length (j + 1) q :=
    fun j q hq => hinv (some j) q hq
  have hps := hinv r p hget
  have hchar := serialHs_char sv (build sv nm ops).pool hpool
    ((build sv nm ops).pool.length - loOf r) (loOf r) rfl
    (build sv nm ops).pool.length (by omega) p.commands (pfx ++ "  ") p.headers hps
  simp only [serializeLines, hget, Option.some_bind]
  simp only [serialAux]
  rw [hchar]
  rfl

/-- Every line emitted by `serialize` starts with the prefix the pass was
serialized at (given that the external `DrawMulti` serializer honours its
prefix argument); nested passes only ever deepen the prefix. -/
lemma serialAux_lines_start (sv : Services)
    (hsv : ∀ c q l, l ∈ sv.serializeMulti c q → ∃ t, l = q ++ t)
    (pool : List PassRec) :
    ∀ (fuel : Nat) (p : PassRec) (pfx : String) (ls : List String),
      serialAux sv pool fuel p pfx = some ls → ∀ l ∈ ls, ∃ t, l = pfx ++ t := by
  intro fuel
  induction fuel with
  | zero =>
    intro p pfx ls h
    simp [serialAux] at h
  | succ f ih =>
    intro p pfx ls h
    simp only [serialAux] at h
    rcases Option.map_eq_some'.mp h with ⟨ls0, hls0, rfl⟩
    have hinner : ∀ (hs : List Header) (ls1 : List String),
        serialHs pool sv (fun sp => serialAux sv pool f sp (pfx ++ "  "))
            p.commands (pfx ++ "  ") hs = some ls1 →
        ∀ l ∈ ls1, ∃ t, l = (pfx ++ "  ") ++ t := by
      intro hs
      induction hs with
      | nil =>
        intro ls1 h1
        simp only [serialHs] at h1
        intro l hl
        rw [← Option.some_inj.mp h1] at hl
        simp at hl
      | cons hh rest ihr =>
        intro ls1 h1
        simp only [serialHs] at h1
        rcases Option.bind_eq_some.mp h1 with ⟨lsh, hlsh, h2⟩
        rcases Option.map_eq_some'.mp h2 with ⟨lsr, hlsr, rfl⟩
        intro l hl
        rcases List.mem_append.mp hl with hlh | hlr
        · rcases hh with ⟨ty, idx⟩
          cases ty
          case none =>
            simp only [serialHdr] at hlsh
            rw [← Option.some_inj.mp hlsh] at hlh
            simp at hlh
          case subPass =>
            simp only [serialHdr] at hlsh
            rcases Option.bind_eq_some.mp hlsh with ⟨sp, hsp, hser⟩
            exact ih sp (pfx ++ "  ") lsh hser l hlh
          case drawMulti =>
            simp only [serialHdr] at hlsh
            rcases Option.map_eq_some'.mp hlsh with ⟨c, hc, hrfl⟩
            subst hrfl
            exact hsv c (pfx ++ "  ") l hlh
          all_goals
            simp only [serialHdr] at hlsh
            rcases Option.map_eq_some'.mp hlsh with ⟨c, hc, hrfl⟩
            subst hrfl
            simp at hlh
            subst hlh
            exact ⟨sv.serializeCmd c, rfl⟩
        · exact ihr lsr hlsr l hlr
    intro l hl
    rcases List.mem_cons.mp hl with hname | hrest
    · subst hname
      exact ⟨"." ++ p.name, by rw [← String.append_assoc]⟩
    · rcases hinner p.headers ls0 hls0 l hrest with ⟨t, ht⟩
      exact ⟨"  " ++ t, by rw [ht, String.append_assoc]⟩

/-- C6: `serialize` is deterministic — two states built by identical recording
sequences give byte-identical output for the same prefix — and nesting is
reflected by indentation: a pass serialized at prefix `pfx` emits its name
line at `pfx` and all of its content at the one-fixed-step-deeper prefix
`pfx ++ "  "` (sub-passes are recursively serialized at that deeper prefix,
see `hdrLines`), so every emitted line extends the pass's own prefix. -/
theorem serialize_deterministic_indented (sv : Services) (nm : String)
    (ops₁ ops₂ : List Op) (r : PassRef) (p : PassRec) (pfx : String)
    (hsv : ∀ c q l, l ∈ sv.serializeMulti c q → ∃ t, l = q ++ t)
    (hops : ops₁ = ops₂)
    (hget : getPass (build sv nm ops₁) r = some p) :
    serializeStr (build sv nm ops₁) sv r pfx
        = serializeStr (build sv nm ops₂) sv r pfx ∧
    serializeLines (build sv nm ops₁) sv r pfx
      = some ((pfx ++ "." ++ p.name)
          :: p.headers.flatMap
              (hdrLines sv (build sv nm ops₁).pool p.commands (pfx ++ "  "))) ∧
    (∀ ls, serializeLines (build sv nm ops₁) sv r pfx = some ls →
      ∀ l ∈ ls, ∃ t, l = pfx ++ t) := by
  refine ⟨by rw [hops], serializeLines_char sv nm ops₁ r p pfx hget, ?_⟩
  intro ls hls l hl
  simp only [serializeLines, hget, Option.some_bind] at hls
  exact serialAux_lines_start sv hsv (build sv nm ops₁).pool _ p pfx ls hls l hl

/-- Witness for `serialize_deterministic_indented`: one barrier in a root pass
named "p", serialized with the empty prefix, yields the name line ".p" and one
indented command line; the name line extends the empty prefix. -/
theorem serialize_deterministic_indented_witness :
    serializeLines (build svTriv "p" [Op.barrier Option.none 2]) svTriv Option.none ""
      = some [".p", "  "] ∧ (∃ t, ".p" = "" ++ t) := by
  have h := serialize_deterministic_indented svTriv "p"
    [Op.barrier Option.none 2] [Op.barrier Option.none 2] Option.none
    ((build svTriv "p" [Op.barrier Option.none 2]).root) ""
    (fun c q l hl => absurd hl (List.not_mem_nil l))
    rfl rfl
  have h2 : serializeLines (build svTriv "p" [Op.barrier Option.none 2]) svTriv
      Option.none "" = some [".p", "  "] := by
    rw [h.2.1]
    decide
  exact ⟨h2, h.2.2 [".p", "  "] h2 ".p" (by decide)⟩
